import Mathlib

/-!
Verification of the feature-map propagation engine of the NTK sketching
library (file experimental/features.py).

The development shallowly embeds the layer combinators, the serial
composition, the Features container and the individual layer
implementations, and proves the behavioural properties stated about them.

Conventions used throughout:
* Python floats are modelled by real numbers.
* A numpy 2-d array is modelled either by a Mathlib matrix over Fin-indexed
  types (for the linear-algebra claims) or by a list of rows (for the
  purely structural claims).
* The zero-dimensional "uninitialized NTK" sentinel (np.zeros(()) in the
  source, detected with ndim == 0) is modelled by Option.none; the value
  carried by the sentinel is the scalar 0, which is used where the source
  broadcasts the sentinel against an array.
* Python exceptions (ValueError, IndexError, NotImplementedError) are
  modelled by Except String.
-/

namespace NT

open scoped Matrix

/-! ## Nested python tuples of ints, as consumed by the init-fn wrapper -/

/-- A python value that is either an int or a tuple, as passed for the
input-shape argument of a wrapped initializer. -/
inductive PyShape where
  | i (n : Int)
  | tup (elems : List PyShape)

/-- Embedding of the helper _is_sinlge_shape (sic) of features.py: a
two- or three-element tuple of ints is a single concrete shape; a two- or
three-element tuple whose leading two elements are themselves (non-single)
shapes is a pair descriptor; anything else raises.  Python raises TypeError
when len() is taken of an int, and ValueError(input_shape) otherwise; the
generator inside all() short-circuits exactly as the source does. -/
def _is_sinlge_shape : PyShape → Except String Bool
  | .i _ => .error "TypeError: object of type int has no len"
  | .tup [.i _, .i _] => .ok true
  | .tup [a, b] => do
      let ba ← _is_sinlge_shape a
      if ba then do
        let bb ← _is_sinlge_shape b
        if bb then pure false else .error "ValueError"
      else .error "ValueError"
  | .tup [.i _, .i _, _] => .ok true
  | .tup [a, b, _] => do
      let ba ← _is_sinlge_shape a
      if ba then do
        let bb ← _is_sinlge_shape b
        if bb then pure false else .error "ValueError"
      else .error "ValueError"
  | .tup _ => .error "ValueError"

/-- Embedding of _preprocess_init_fn: if the incoming shape is a single
concrete shape, pair it with the default companion shape (-1, 0) before
delegating; otherwise delegate unchanged.  An exception raised while
classifying the shape propagates. -/
def _preprocess_init_fn {α : Type} (init_fn : Nat → PyShape → Except String α)
    (rng : Nat) (input_shape_any : PyShape) : Except String α := do
  let single ← _is_sinlge_shape input_shape_any
  if single then
    init_fn rng (.tup [input_shape_any, .tup [.i (-1), .i 0]])
  else
    init_fn rng input_shape_any

/-! ## Shape descriptors threaded between layer initializers

A per-layer shape descriptor is the python tuple (nngp_feat_shape,
ntk_feat_shape) or (nngp_feat_shape, ntk_feat_shape, path_tag); the
optional third component models the presence or absence of the tag. -/

/-- Shape descriptor: the two feature shapes plus the optional path tag. -/
abbrev Desc := List Int × List Int × Option String

/-- Embedding of the helper _prod of features.py. -/
def _prod (l : List Int) : Int := l.foldl (fun p x => p * x) 1

/-- Python style indexed access: xs[k] raises IndexError when out of range
(only non-negative indices are used by the embedded code). -/
def pyGet (xs : List Int) (k : Nat) : Except String Int :=
  match xs.get? k with
  | some v => .ok v
  | none => .error "IndexError: tuple index out of range"

/-- Python style xs[-1]: the last element, raising IndexError on an empty
tuple. -/
def pyLast : List Int → Except String Int
  | [] => .error "IndexError: tuple index out of range"
  | [x] => .ok x
  | _ :: x :: xs => pyLast (x :: xs)

/-- Python style xs[-1:]: a one element tuple holding the last element, or
the empty tuple. -/
def pyLastSlice (xs : List Int) : List Int :=
  match xs.getLast? with
  | some v => [v]
  | none => []

/-- Embedding of the init_fn of DenseFeatures: the new NTK feature width is
the sum of the incoming NNGP and NTK widths, and the path tag is extended
with D (or started at D when the incoming descriptor has no tag). -/
def denseInitFn (inp : Desc) : Except String (Desc × Unit) := do
  let (nngp, ntk, tag) := inp
  let ln ← pyLast nngp
  let lt ← pyLast ntk
  let newNtk := nngp.dropLast ++ [ln + lt]
  match tag with
  | some t => .ok ((nngp, newNtk, some (t ++ "D")), ())
  | none => .ok ((nngp, newNtk, some "D"), ())

/-- Embedding of the init_fn of ReluFeatures for method exact: both feature
widths become the product of the leading (batch/spatial) extents, and the
path tag is extended with R.  The source reads input_shape[2]
unconditionally, so a descriptor without a tag raises IndexError. -/
def reluExactInitFn (inp : Desc) : Except String (Desc × Unit) := do
  let (nngp, ntk, tag) := inp
  let net ← match tag with
    | some t => .ok t
    | none => .error "IndexError: tuple index out of range"
  let newNngp := nngp.dropLast ++ [_prod nngp.dropLast]
  let newNtk := ntk.dropLast ++ [_prod ntk.dropLast]
  .ok ((newNngp, newNtk, some (net ++ "R")), ())

/-- Embedding of the init_fn of ConvFeatures: channel widths are scaled by
the squared filter size, and the path tag is extended with D exactly as in
DenseFeatures. -/
def convInitFn (filter_size : Int) (inp : Desc) : Except String (Desc × Unit) := do
  let (nngp, ntk, tag) := inp
  let ln ← pyLast nngp
  let lt ← pyLast ntk
  let newNngp := nngp.dropLast ++ [ln * filter_size ^ 2]
  let newNtk := nngp.dropLast ++ [(ln + lt) * filter_size ^ 2]
  match tag with
  | some t => .ok ((newNngp, newNtk, some (t ++ "D")), ())
  | none => .ok ((newNngp, newNtk, some "D"), ())

/-- Embedding of the init_fn of AvgPoolFeatures: spatial extents are floor
divided by the window shape.  The returned descriptor is the bare pair of
shapes: no path tag is produced. -/
def avgPoolInitFn (window_shape : List Int) (inp : Desc) :
    Except String (Desc × Unit) := do
  let (nngp, ntk, _) := inp
  let n1 ← pyGet nngp 1
  let n2 ← pyGet nngp 2
  let t1 ← pyGet ntk 1
  let t2 ← pyGet ntk 2
  let w0 ← pyGet window_shape 0
  let w1 ← pyGet window_shape 1
  let newNngp := nngp.take 1 ++ [Int.fdiv n1 w0, Int.fdiv n2 w1] ++ pyLastSlice nngp
  let newNtk := ntk.take 1 ++ [Int.fdiv t1 w0, Int.fdiv t2 w1] ++ pyLastSlice ntk
  .ok ((newNngp, newNtk, none), ())

/-- Embedding of the init_fn of FlattenFeatures: all non-batch extents are
collapsed into one product extent.  The returned descriptor is the bare
pair of shapes: no path tag is produced. -/
def flattenInitFn (inp : Desc) : Except String (Desc × Unit) := do
  let (nngp, ntk, _) := inp
  let newNngp := nngp.take 1 ++ [_prod (nngp.drop 1)]
  let newNtk := ntk.take 1 ++ [_prod (ntk.drop 1)]
  .ok ((newNngp, newNtk, none), ())

/-- Helper simp lemma: bind on a successful Except value. -/
@[simp] theorem exceptBind_ok {α β ε : Type} (a : α) (f : α → Except ε β) :
    (Except.ok a >>= f) = f a := rfl

/-- Helper simp lemma: bind on a failed Except value. -/
@[simp] theorem exceptBind_error {α β ε : Type} (e : ε) (f : α → Except ε β) :
    ((Except.error e : Except ε α) >>= f) = .error e := rfl

/-- Helper: python xs[-1] on a tuple written as a prefix plus last element. -/
theorem pyLast_concat : ∀ (a : List Int) (x : Int), pyLast (a ++ [x]) = .ok x
  | [], _ => rfl
  | [_], _ => rfl
  | _ :: z :: rest, x => pyLast_concat (z :: rest) x

/-- Claim C7 (amended).  The wrapped initializer accepts a concrete shape
that is a tuple of two or three ints, synthesizing the companion shape
(-1, 0); it passes a pair of feature-shape descriptors through unchanged;
a malformed shape (anything _is_sinlge_shape rejects, including tuples of
ints of any other length) fails fast with the classification error, never
reaching the wrapped initializer. -/
theorem preprocess_init_fn_shape_dispatch {α : Type}
    (init_fn : Nat → PyShape → Except String α) (rng : Nat) :
    (∀ a b : Int, _preprocess_init_fn init_fn rng (.tup [.i a, .i b]) =
        init_fn rng (.tup [.tup [.i a, .i b], .tup [.i (-1), .i 0]])) ∧
    (∀ a b c : Int, _preprocess_init_fn init_fn rng (.tup [.i a, .i b, .i c]) =
        init_fn rng (.tup [.tup [.i a, .i b, .i c], .tup [.i (-1), .i 0]])) ∧
    (∀ s1 s2 : PyShape, _is_sinlge_shape s1 = .ok true → _is_sinlge_shape s2 = .ok true →
        _preprocess_init_fn init_fn rng (.tup [s1, s2]) = init_fn rng (.tup [s1, s2])) ∧
    (∀ (s : PyShape) (e : String), _is_sinlge_shape s = .error e →
        _preprocess_init_fn init_fn rng s = .error e) := by
  refine ⟨fun a b => rfl, fun a b c => rfl, fun s1 s2 h1 h2 => ?_, fun s e h => ?_⟩
  · cases s1 with
    | i n => simp [_is_sinlge_shape] at h1
    | tup l1 =>
      cases s2 with
      | i n => simp [_is_sinlge_shape] at h2
      | tup l2 =>
        have hcls : _is_sinlge_shape (.tup [.tup l1, .tup l2]) = .ok false := by
          simp [_is_sinlge_shape, h1, h2]
          rfl
        simp [_preprocess_init_fn, hcls]
  · simp [_preprocess_init_fn, h]

/-- Claim C7 (counterexample).  A four-int tuple is a single concrete
shape (a tuple of integers), yet the wrapper raises ValueError instead of
accepting it, even though the wrapped initializer itself always succeeds. -/
theorem preprocess_init_fn_four_int_shape_raises :
    _preprocess_init_fn (fun _ _ => .ok (0 : Nat)) 0
        (.tup [.i 1, .i 2, .i 3, .i 4]) = .error "ValueError" := rfl

/-- Witness for the amended claim C7: the pass-through case at the concrete
pair ((6, 5), (6, 0)) and the fail-fast case at the int input 7. -/
theorem preprocess_init_fn_shape_dispatch_witness :
    _preprocess_init_fn (fun _ _ => .ok (0 : Nat)) 0
        (.tup [.tup [.i 6, .i 5], .tup [.i 6, .i 0]]) = .ok 0 ∧
    _preprocess_init_fn (fun _ _ => .ok (0 : Nat)) 0 (.i 7) =
      .error "TypeError: object of type int has no len" :=
  ⟨(preprocess_init_fn_shape_dispatch (fun _ _ => .ok 0) 0).2.2.1 _ _ rfl rfl,
   (preprocess_init_fn_shape_dispatch (fun _ _ => .ok 0) 0).2.2.2 _ _ rfl⟩

/-- Claim C8 (amended).  DenseFeatures, ReluFeatures and ConvFeatures
initializers return a descriptor (nngp_feat_shape, ntk_feat_shape,
path_tag) with the incoming tag extended by their layer kind, but
AvgPoolFeatures and FlattenFeatures return only the bare pair of feature
shapes, dropping the path tag. -/
theorem init_fns_tag_propagation
    (a b : List Int) (x y k : Int) (t : String)
    (n h w c n2 h2 w2 c2 w0 w1 : Int) (tag : Option String) :
    (denseInitFn (a ++ [x], b ++ [y], some t) =
      .ok ((a ++ [x], a ++ [x + y], some (t ++ "D")), ())) ∧
    (reluExactInitFn (a ++ [x], b ++ [y], some t) =
      .ok ((a ++ [_prod a], b ++ [_prod b], some (t ++ "R")), ())) ∧
    (convInitFn k (a ++ [x], b ++ [y], some t) =
      .ok ((a ++ [x * k ^ 2], a ++ [(x + y) * k ^ 2], some (t ++ "D")), ())) ∧
    (avgPoolInitFn [w0, w1] ([n, h, w, c], [n2, h2, w2, c2], tag) =
      .ok (([n, Int.fdiv h w0, Int.fdiv w w1, c],
            [n2, Int.fdiv h2 w0, Int.fdiv w2 w1, c2], none), ())) ∧
    (flattenInitFn ([n, h, w, c], [n2, h2, w2, c2], tag) =
      .ok (([n, h * w * c], [n2, h2 * w2 * c2], none), ())) := by
  refine ⟨?_, ?_, ?_, ?_, ?_⟩
  · simp [denseInitFn, pyLast_concat, List.dropLast_concat]
  · simp [reluExactInitFn, pyLast_concat, List.dropLast_concat]
  · simp [convInitFn, pyLast_concat, List.dropLast_concat]
  · simp [avgPoolInitFn, pyGet, pyLastSlice]
  · simp [flattenInitFn, _prod, List.foldl]

/-- Witness for the amended claim C8 at concrete shapes. -/
theorem init_fns_tag_propagation_witness :
    (denseInitFn ([6, 5], [6, 0], some "") =
      .ok (([6, 5], [6, 5], some "D"), ())) ∧
    (avgPoolInitFn [2, 2] ([6, 8, 8, 3], [6, 8, 8, 3], some "D") =
      .ok (([6, 4, 4, 3], [6, 4, 4, 3], none), ())) :=
  ⟨(init_fns_tag_propagation [6] [6] 5 0 1 "" 6 8 8 3 6 8 8 3 2 2 (some "D")).1,
   (init_fns_tag_propagation [6] [6] 5 0 1 "" 6 8 8 3 6 8 8 3 2 2 (some "D")).2.2.2.1⟩

/-- Claim C8 (counterexample).  The AvgPoolFeatures initializer returns a
descriptor whose third component is absent (none): the incoming path tag
"D" is not extended to "DA" or to any other tag, contradicting the claim
that every layer's initializer extends the path tag. -/
theorem avgPoolInitFn_drops_tag :
    (avgPoolInitFn [2, 2] ([6, 8, 8, 3], [6, 8, 8, 3], some "D")).map
        (fun r => r.1.2.2) = .ok none ∧
    (Except.ok (none : Option String) : Except String (Option String)) ≠
      .ok (some "DA") := by
  constructor
  · rfl
  · intro hcon
    simp at hcon

/-! ## The Features container and the feature transformers

Features propagated through the pipeline are 2-d arrays with a fixed
number of rows (the flattened batch) and a varying channel width, hence
the width is carried existentially.  norms is the per-row scale column
(shape (rows, 1) in the source, broadcast over channels). -/

noncomputable section

/-- A feature matrix: rows indexed by the batch, columns by the channels. -/
abbrev FMat (n d : ℕ) := Matrix (Fin n) (Fin d) ℝ

/-- Embedding of the Features dataclass at the default axis layout
(batch_axis 0, channel_axis -1, constant through a pipeline instance).
ntk_feat is either the zero-dimensional sentinel np.zeros(()) (modelled
by none, carrying the value 0) or a 2-d array of some width; norms is the
(rows, 1) scale column. -/
structure Features (n : ℕ) where
  dN : ℕ
  nngp_feat : FMat n dN
  ntk_feat : Option ((dt : ℕ) × FMat n dt)
  norms : Fin n → ℝ

/-- Broadcast multiplication of a feature matrix by the norms column:
entry (i, j) becomes M i j * norms i. -/
def rowScale {n d : ℕ} (c : Fin n → ℝ) (M : FMat n d) : FMat n d :=
  Matrix.of fun i j => M i j * c i

/-- Concatenation of two feature matrices along the channel axis. -/
def concatC {n a b : ℕ} (A : FMat n a) (B : FMat n b) : FMat n (a + b) :=
  Matrix.of fun i j => Fin.addCases (A i) (B i) j

/-- Embedding of _renormalize_feature: multiply the accumulated norms back
into both feature matrices; the norms field itself is left untouched.
When ntk_feat is still the sentinel, numpy broadcasting of the 0-d zero
against the (n, 1) norms column yields an (n, 1) zero array. -/
def _renormalize_feature {n : ℕ} (f : Features n) : Features n :=
  { f with
    nngp_feat := rowScale f.norms f.nngp_feat,
    ntk_feat := some (match f.ntk_feat with
      | none => ⟨1, Matrix.of fun i _ => 0 * f.norms i⟩
      | some ⟨dt, M⟩ => ⟨dt, rowScale f.norms M⟩) }

/-- The loop body of serial's feature_fn: apply each layer transformer in
order, propagating any raised exception.  The source zips the transformer
list with the per-layer parameter list; here each transformer is already
closed over its parameters, so the zipped pair becomes one function. -/
def applyLayers {n : ℕ} (fs : List (Features n → Except String (Features n)))
    (f : Features n) : Except String (Features n) :=
  match fs with
  | [] => .ok f
  | g :: rest => do applyLayers rest (← g f)

/-- Embedding of the feature_fn produced by serial: apply all layer
transformers in order, then renormalize once. -/
def serialFeatureFn {n : ℕ} (fs : List (Features n → Except String (Features n)))
    (f : Features n) : Except String (Features n) :=
  (applyLayers fs f).map _renormalize_feature

/-- Embedding of the feature_fn of DenseFeatures: W_std is accumulated
into norms; the sentinel NTK feature is initialized by aliasing the NNGP
feature, otherwise the NNGP feature is concatenated onto the NTK feature
along the channel axis; the NNGP feature itself passes through. -/
def denseFeatureFn {n : ℕ} (W_std : ℝ) (f : Features n) : Features n :=
  { dN := f.dN,
    nngp_feat := f.nngp_feat,
    ntk_feat := some (match f.ntk_feat with
      | none => ⟨f.dN, f.nngp_feat⟩
      | some ⟨dt, M⟩ => ⟨dt + f.dN, concatC M f.nngp_feat⟩),
    norms := fun i => f.norms i * W_std }

/-- Embedding of _inputs_to_features: scale the raw input by the square
root of the channel dimension, record the per-row euclidean norms (zero
norms replaced by 1.0), divide by them, and set the NTK sentinel. -/
def _inputs_to_features {n d : ℕ} (x : FMat n d) : Features n :=
  let nngp0 : FMat n d := Matrix.of fun i j => x i j / Real.sqrt d
  let norms0 : Fin n → ℝ := fun i => Real.sqrt (∑ j, nngp0 i j ^ 2)
  let norms : Fin n → ℝ := fun i => if 0 < norms0 i then norms0 i else 1
  { dN := d,
    nngp_feat := Matrix.of fun i j => nngp0 i j / norms i,
    ntk_feat := none,
    norms := norms }

/-- Embedding of the transform-normalization wrapper
_preprocess_feature_fn: an already-lifted Features container is passed
through, a raw array is lifted with _inputs_to_features first. -/
def _preprocess_feature_fn {n : ℕ}
    (feature_fn : Features n → Except String (Features n)) :
    ((d : ℕ) × FMat n d) ⊕ Features n → Except String (Features n)
  | .inr f => feature_fn f
  | .inl ⟨_, x⟩ => feature_fn (_inputs_to_features x)

/-- Embedding of the DenseFeatures layer constructor: passing any b_std
value (the source checks b_std is not None, so even an explicit 0 is
rejected) or a parameterization other than ntk raises NotImplementedError;
otherwise the (init_fn, feature_fn) pair is returned. -/
def DenseFeatures (out_dim : Int) (W_std : ℝ) (b_std : Option ℝ)
    (parameterization : String) :
    Except String ((Desc → Except String (Desc × Unit)) ×
      ((n : ℕ) → Features n → Except String (Features n))) :=
  match b_std with
  | some _ => .error "NotImplementedError: Bias variable b_std is not implemented yet. Please set b_std to be 0."
  | none =>
    if parameterization ≠ "ntk" then
      .error "NotImplementedError: Parameterization is not implemented yet."
    else
      .ok (denseInitFn, fun _ f => .ok (denseFeatureFn W_std f))

/-- Whether a layer construction succeeded. -/
def isOkE {ε α : Type} : Except ε α → Bool
  | .ok _ => true
  | .error _ => false

/-- Helper: applying a concatenation of layer lists is sequential
composition, so serial applies the layer transformers in order. -/
theorem applyLayers_append {n : ℕ}
    (fs gs : List (Features n → Except String (Features n))) (f : Features n) :
    applyLayers (fs ++ gs) f = applyLayers fs f >>= applyLayers gs := by
  induction fs generalizing f with
  | nil => simp [applyLayers]
  | cons g rest ih =>
    cases hgf : g f with
    | ok y => simp [applyLayers, hgf, ih]
    | error e => simp [applyLayers, hgf]

/-- Claim C2 (amended).  serial's transformer applies the layer
transformers in order (concatenating layer lists composes the loops), and
after the last layer multiplies the accumulated norms into both feature
matrices exactly once, via one final _renormalize_feature; the returned
container carries the accumulated norms unchanged (they are not reset). -/
theorem serial_renormalizes_once {n : ℕ}
    (fs gs : List (Features n → Except String (Features n))) (f k : Features n) :
    serialFeatureFn fs f = (applyLayers fs f).map _renormalize_feature ∧
    applyLayers (fs ++ gs) f = applyLayers fs f >>= applyLayers gs ∧
    (applyLayers fs f = .ok k →
      serialFeatureFn fs f = .ok (_renormalize_feature k) ∧
      (_renormalize_feature k).nngp_feat = rowScale k.norms k.nngp_feat ∧
      (∀ (dt : ℕ) (M : FMat n dt), k.ntk_feat = some ⟨dt, M⟩ →
        (_renormalize_feature k).ntk_feat = some ⟨dt, rowScale k.norms M⟩) ∧
      (_renormalize_feature k).norms = k.norms) := by
  refine ⟨rfl, applyLayers_append fs gs f, fun hk => ⟨?_, rfl, fun dt M hm => ?_, rfl⟩⟩
  · simp [serialFeatureFn, hk, Except.map]
  · simp [_renormalize_feature, hm]

/-- A concrete lifted container with accumulated norms 2, used to exhibit
the behaviour of serial's final renormalization. -/
def exC2 : Features 1 :=
  { dN := 1, nngp_feat := Matrix.of fun _ _ => 3, ntk_feat := none, norms := fun _ => 2 }

/-- Claim C2 (counterexample).  serial returns the container with the
accumulated norms (here 2) untouched: _renormalize_feature never resets
the norms field, so the result does not carry reset (unit) norms. -/
theorem serial_does_not_reset_norms :
    (serialFeatureFn [] exC2).map Features.norms = .ok (fun _ => (2 : ℝ)) ∧
    (2 : ℝ) ≠ 1 := by
  refine ⟨rfl, ?_⟩
  norm_num

/-- Witness for the amended claim C2 at the empty layer list and exC2. -/
theorem serial_renormalizes_once_witness :
    serialFeatureFn [] exC2 = .ok (_renormalize_feature exC2) ∧
    (_renormalize_feature exC2).norms = exC2.norms :=
  ⟨((serial_renormalizes_once [] [] exC2 exC2).2.2 rfl).1,
   ((serial_renormalizes_once [] [] exC2 exC2).2.2 rfl).2.2.2⟩

/-- Claim C3.  The DenseFeatures transformer initializes a sentinel NTK
feature by aliasing the NNGP feature exactly, otherwise concatenates the
NNGP feature onto the running NTK feature along the channel axis, and
passes the NNGP feature through unchanged. -/
theorem dense_ntk_sentinel_and_concat {n : ℕ} (W_std : ℝ) (f : Features n) :
    (denseFeatureFn W_std f).nngp_feat = f.nngp_feat ∧
    (f.ntk_feat = none →
      (denseFeatureFn W_std f).ntk_feat = some ⟨f.dN, f.nngp_feat⟩) ∧
    (∀ (dt : ℕ) (M : FMat n dt), f.ntk_feat = some ⟨dt, M⟩ →
      (denseFeatureFn W_std f).ntk_feat = some ⟨dt + f.dN, concatC M f.nngp_feat⟩) := by
  refine ⟨rfl, fun h => ?_, fun dt M h => ?_⟩ <;> simp [denseFeatureFn, h]

/-- A freshly lifted container (sentinel NTK feature). -/
def exC3a : Features 1 :=
  { dN := 1, nngp_feat := Matrix.of fun _ _ => 1, ntk_feat := none, norms := fun _ => 1 }

/-- A container whose NTK feature is already initialized. -/
def exC3b : Features 1 :=
  { dN := 1, nngp_feat := Matrix.of fun _ _ => 1,
    ntk_feat := some ⟨1, Matrix.of fun _ _ => 5⟩, norms := fun _ => 1 }

/-- Witness for claim C3 at concrete containers for both branches. -/
theorem dense_ntk_sentinel_and_concat_witness :
    (denseFeatureFn 1 exC3a).ntk_feat = some ⟨1, exC3a.nngp_feat⟩ ∧
    (denseFeatureFn 1 exC3b).ntk_feat =
      some ⟨1 + 1, concatC (Matrix.of fun _ _ => 5) exC3b.nngp_feat⟩ :=
  ⟨(dense_ntk_sentinel_and_concat 1 exC3a).2.1 rfl,
   (dense_ntk_sentinel_and_concat 1 exC3b).2.2 1 _ rfl⟩

/-- Claim C4.  The wrapped transformer lifts a raw input x to a Features
container whose NNGP feature is x divided by the square root of the
channel dimension and then divided row-wise by the per-row euclidean norm
(zero norms replaced by 1.0 first), whose norms field holds those per-row
norms, and whose NTK feature is the uninitialized sentinel. -/
theorem inputs_lifting_law {n d : ℕ} (x : FMat n d) :
    (∀ g, _preprocess_feature_fn g (.inl ⟨d, x⟩) = g (_inputs_to_features x)) ∧
    _inputs_to_features x =
      { dN := d,
        nngp_feat := Matrix.of fun i j =>
          (x i j / Real.sqrt d) /
            (if Real.sqrt (∑ k, (x i k / Real.sqrt d) ^ 2) = 0 then 1
             else Real.sqrt (∑ k, (x i k / Real.sqrt d) ^ 2)),
        ntk_feat := none,
        norms := fun i =>
          if Real.sqrt (∑ k, (x i k / Real.sqrt d) ^ 2) = 0 then 1
          else Real.sqrt (∑ k, (x i k / Real.sqrt d) ^ 2) } := by
  have key : ∀ t : ℝ, 0 ≤ t → (if 0 < t then t else 1) = (if t = 0 then 1 else t) := by
    intro t ht
    rcases eq_or_lt_of_le ht with h | h
    · simp [← h]
    · simp [h, (ne_of_gt h)]
  refine ⟨fun g => rfl, ?_⟩
  unfold _inputs_to_features
  dsimp only
  congr 1
  · funext i j
    simp only [Matrix.of_apply]
    rw [key _ (Real.sqrt_nonneg _)]
  · funext i
    rw [key _ (Real.sqrt_nonneg _)]
    simp only [Matrix.of_apply]

/-- Claim C5 (amended).  DenseFeatures construction succeeds exactly when
no b_std value is passed at all (the default None) and the
parameterization is ntk; passing any b_std, including an explicit 0,
raises NotImplementedError. -/
theorem dense_construction_errors (out_dim : Int) (W_std : ℝ)
    (b_std : Option ℝ) (p : String) :
    isOkE (DenseFeatures out_dim W_std b_std p) = true ↔
      b_std = none ∧ p = "ntk" := by
  cases b_std with
  | some v => simp [DenseFeatures, isOkE]
  | none =>
    by_cases hp : p = "ntk" <;> simp [DenseFeatures, isOkE, hp]

/-- Claim C5 (counterexample).  Constructing DenseFeatures with the
explicit bias value 0 — a zero additive bias, which the claim says is a
supported configuration — nevertheless fails, because the source checks
b_std is not None rather than b_std being nonzero. -/
theorem dense_rejects_explicit_zero_bias :
    isOkE (DenseFeatures 1 1 (some 0) "ntk") = false := rfl

/-! ## Top-layer conversion of complex features (ReluFeatures, methods ps
and psrf)

The sketch operators are external collaborators whose outputs are complex
matrices; the pre-conversion features are therefore quantified over all
complex matrices (modelled as lists of rows).  The conversion itself is
np.concatenate((x.real, x.imag), axis=1). -/

/-- Embedding of the top-layer conversion: concatenate the real parts and
the imaginary parts of each row along the channel axis. -/
def topLayerConvert (M : List (List ℂ)) : List (List ℂ) :=
  M.map fun row => (row.map fun z => (z.re : ℂ)) ++ (row.map fun z => (z.im : ℂ))

/-- Embedding of the tail of the ps/psrf branches of ReluFeatures'
feature_fn: when top_layer is set, both feature matrices are converted. -/
def reluTopLayerFinalize (top_layer : Bool)
    (p : List (List ℂ) × List (List ℂ)) : List (List ℂ) × List (List ℂ) :=
  if top_layer then (topLayerConvert p.1, topLayerConvert p.2) else p

/-- Claim C6.  With top_layer set, both returned feature matrices are
real-valued (every entry has zero imaginary component) and every row has
exactly double the pre-conversion column count, the real and imaginary
parts being concatenated. -/
theorem top_layer_real_conversion (nngp ntk : List (List ℂ)) :
    ((reluTopLayerFinalize true (nngp, ntk)).1.map fun row => row.map Complex.im) =
      nngp.map (fun row => List.replicate (2 * row.length) (0 : ℝ)) ∧
    ((reluTopLayerFinalize true (nngp, ntk)).2.map fun row => row.map Complex.im) =
      ntk.map (fun row => List.replicate (2 * row.length) (0 : ℝ)) ∧
    (reluTopLayerFinalize true (nngp, ntk)).1.map List.length =
      nngp.map (fun row => 2 * row.length) ∧
    (reluTopLayerFinalize true (nngp, ntk)).2.map List.length =
      ntk.map (fun row => 2 * row.length) := by
  have him : ∀ row : List ℂ,
      List.map Complex.im
          ((row.map fun z => ((z.re : ℝ) : ℂ)) ++ row.map fun z => ((z.im : ℝ) : ℂ)) =
        List.replicate (2 * row.length) (0 : ℝ) := by
    intro row
    rw [List.map_append, List.map_map, List.map_map, two_mul, List.replicate_add]
    have h1 : (Complex.im ∘ fun z : ℂ => ((z.re : ℝ) : ℂ)) = fun _ => (0 : ℝ) :=
      funext fun z => Complex.ofReal_im z.re
    have h2 : (Complex.im ∘ fun z : ℂ => ((z.im : ℝ) : ℂ)) = fun _ => (0 : ℝ) :=
      funext fun z => Complex.ofReal_im z.im
    rw [h1, h2]
    simp
  have hmain : ∀ M : List (List ℂ),
      (topLayerConvert M).map (List.map Complex.im) =
        M.map (fun row => List.replicate (2 * row.length) (0 : ℝ)) := by
    intro M
    induction M with
    | nil => rfl
    | cons r rest ih =>
      simp only [topLayerConvert, List.map_cons] at ih ⊢
      rw [him r, ih]
  have hlen : ∀ M : List (List ℂ),
      (topLayerConvert M).map List.length = M.map (fun row => 2 * row.length) := by
    intro M
    induction M with
    | nil => rfl
    | cons r rest ih =>
      simp only [topLayerConvert, List.map_cons] at ih ⊢
      rw [ih, List.length_append, List.length_map, List.length_map, two_mul]
  exact ⟨hmain nngp, hmain ntk, hlen nngp, hlen ntk⟩

/-! ## ConvFeatures

Four-dimensional (batch, height, width, channel) arrays are modelled as
Fin-indexed functions.  The default dimension numbers of the source
(NHWC, produced by the external _get_dimension_numbers helper) put the
channel axis last. -/

/-- A 4-d feature array in NHWC layout. -/
abbrev Arr4 (Nb Hs Ws C : ℕ) := Fin Nb → Fin Hs → Fin Ws → Fin C → ℝ

/-- Value of output channel block j of _conv_feat.  Block 0 is the input
itself; block 2k-1 (k at least 1, while k is below the loop bound) is the
input shifted k pixels towards lower width indices, zero-filled; block 2k
is the shift in the other direction; all remaining blocks stay zero. -/
def convBlockVal {Nb Hs Ws C : ℕ} (X : Arr4 Nb Hs Ws C) (bound j : ℕ)
    (n : Fin Nb) (h : Fin Hs) (w : Fin Ws) (c : Fin C) : ℝ :=
  if j = 0 then X n h w c
  else if j % 2 = 1 then
    if (j + 1) / 2 < bound then
      (if hw : (w : ℕ) + (j + 1) / 2 < Ws then X n h ⟨(w : ℕ) + (j + 1) / 2, hw⟩ c
       else 0)
    else 0
  else
    if j / 2 < bound then
      (if j / 2 ≤ (w : ℕ) then
        X n h ⟨(w : ℕ) - j / 2, Nat.lt_of_le_of_lt (Nat.sub_le _ _) w.isLt⟩ c
       else 0)
    else 0

/-- Embedding of _conv_feat: direct sums of image features along the width
axis; output channel c is block c / C, channel c mod C.  The loop of the
source runs the shift k from 1 to min((filter_size + 1) / 2, W) - 1. -/
def _conv_feat {Nb Hs Ws C : ℕ} (X : Arr4 Nb Hs Ws C) (filter_size : ℕ) :
    Arr4 Nb Hs Ws (C * filter_size) :=
  fun n h w c =>
    if hC : 0 < C then
      convBlockVal X (min ((filter_size + 1) / 2) Ws) ((c : ℕ) / C) n h w
        ⟨(c : ℕ) % C, Nat.mod_lt _ hC⟩
    else 0

/-- Embedding of np.moveaxis(X, 1, 2) on an NHWC array: swap the two
spatial axes. -/
def moveaxis12 {Nb Hs Ws C : ℕ} (X : Arr4 Nb Hs Ws C) : Arr4 Nb Ws Hs C :=
  fun n w h c => X n h w c

/-- Embedding of _conv2d_feat: sweep the width axis, swap the spatial
axes, sweep again.  As in the source, the axes are not swapped back. -/
def _conv2d_feat {Nb Hs Ws C : ℕ} (X : Arr4 Nb Hs Ws C) (filter_size : ℕ) :
    Arr4 Nb Ws Hs (C * filter_size * filter_size) :=
  _conv_feat (moveaxis12 (_conv_feat X filter_size)) filter_size

/-- A Features container with spatial axes, as propagated through
ConvFeatures. -/
structure Features4 (Nb Hs Ws : ℕ) where
  cN : ℕ
  nngp_feat : Arr4 Nb Hs Ws cN
  ntk_feat : Option ((ct : ℕ) × Arr4 Nb Hs Ws ct)
  norms : Fin Nb → ℝ

/-- Concatenation of two 4-d feature arrays along the channel axis. -/
def appendC4 {Nb Hs Ws a b : ℕ} (A : Arr4 Nb Hs Ws a) (B : Arr4 Nb Hs Ws b) :
    Arr4 Nb Hs Ws (a + b) :=
  fun n h w c => Fin.addCases (A n h w) (B n h w) c

/-- Embedding of the feature_fn of ConvFeatures.  The constructor
arguments strides and padding are part of the layer configuration exactly
as in the source, which never reads either of them in the transform. -/
def convFeatureFn {Nb Hs Ws : ℕ} (W_std : ℝ) (filter_size : ℕ)
    (strides : Option (List Int)) (padding : String)
    (f : Features4 Nb Hs Ws) : Features4 Nb Ws Hs :=
  let nngp : Arr4 Nb Ws Hs (f.cN * filter_size * filter_size) :=
    fun n w h c => _conv2d_feat f.nngp_feat filter_size n w h c / (filter_size : ℝ) * W_std
  { cN := f.cN * filter_size * filter_size,
    nngp_feat := nngp,
    ntk_feat := some (match f.ntk_feat with
      | none => ⟨f.cN * filter_size * filter_size, nngp⟩
      | some ⟨ct, T⟩ =>
          ⟨ct * filter_size * filter_size + f.cN * filter_size * filter_size,
           appendC4
             (fun n w h c => _conv2d_feat T filter_size n w h c / (filter_size : ℝ) * W_std)
             nngp⟩),
    norms := f.norms }

/-- The stride-1, zero-filled sliding-window neighborhood concatenation
that ConvFeatures always performs, written without the strides and padding
configuration arguments. -/
def convFeatureFnFixed {Nb Hs Ws : ℕ} (W_std : ℝ) (filter_size : ℕ)
    (f : Features4 Nb Hs Ws) : Features4 Nb Ws Hs :=
  let nngp : Arr4 Nb Ws Hs (f.cN * filter_size * filter_size) :=
    fun n w h c => _conv2d_feat f.nngp_feat filter_size n w h c / (filter_size : ℝ) * W_std
  { cN := f.cN * filter_size * filter_size,
    nngp_feat := nngp,
    ntk_feat := some (match f.ntk_feat with
      | none => ⟨f.cN * filter_size * filter_size, nngp⟩
      | some ⟨ct, T⟩ =>
          ⟨ct * filter_size * filter_size + f.cN * filter_size * filter_size,
           appendC4
             (fun n w h c => _conv2d_feat T filter_size n w h c / (filter_size : ℝ) * W_std)
             nngp⟩),
    norms := f.norms }

/-- Claim C10.  The ConvFeatures transformer's output is identical for any
two values of the strides and padding arguments: it always applies the
fixed sliding-window neighborhood concatenation, divided by the filter
size and scaled by W_std, and never reads either parameter. -/
theorem conv_ignores_strides_padding {Nb Hs Ws : ℕ} (W_std : ℝ)
    (filter_size : ℕ) (s1 s2 : Option (List Int)) (p1 p2 : String)
    (f : Features4 Nb Hs Ws) :
    convFeatureFn W_std filter_size s1 p1 f = convFeatureFn W_std filter_size s2 p2 f ∧
    convFeatureFn W_std filter_size s1 p1 f = convFeatureFnFixed W_std filter_size f :=
  ⟨rfl, rfl⟩

/-! ## Determinism of the initialize and transform passes

Modelled from the spec: the external random backend (jax.random.normal and
jax.random.split) and the TensorSRHT sketch constructor/operator of the
sketching module are not part of the core sources; per the spec they are
deterministic functions of an explicit, splittable PRNG key and of their
configuration, so they enter the embedding as function parameters, and the
sketch operator object is represented by its construction arguments. -/

/-- A TensorSRHT sketch operator, represented by the arguments of its
construction (seed and dimensions), of which the external init_sketches
step is a deterministic function. -/
structure TSRHT where
  rng : ℕ
  input_dim1 : ℕ
  input_dim2 : ℕ
  sketch_dim : ℕ

/-- The parameter bundle produced by the init_fn of ReluFeatures with
method rf: two Gaussian projection matrices and a TensorSRHT operator. -/
structure RfParams (nngpDim fd0 fd1 : ℕ) where
  W0 : FMat nngpDim fd0
  W1 : FMat nngpDim fd1
  tsrht : TSRHT

/-- Embedding of the parameter part of ReluFeatures' init_fn for method
rf: split the key in three, sample W0 and W1, build the TensorSRHT. -/
def reluRfInitParams (normal : ℕ → (r c : ℕ) → FMat r c)
    (split : ℕ → ℕ → List ℕ) (fd0 fd1 sd rng nngpDim ntkDim : ℕ) :
    RfParams nngpDim fd0 fd1 :=
  let rngs := split rng 3
  { W0 := normal (rngs.getD 0 0) nngpDim fd0,
    W1 := normal (rngs.getD 1 0) nngpDim fd1,
    tsrht := ⟨rngs.getD 2 0, ntkDim, fd0, sd⟩ }

/-- Embedding of the feature_fn of ReluFeatures with method rf: threshold
features approximate kappa0, ReLU features give the new NNGP embedding,
and the external TensorSRHT sketch (a parameter) combines the running NTK
embedding with the kappa0 features. -/
def reluRfFeatureFn
    (sketchFn : TSRHT → (nb d1 d2 : ℕ) → FMat nb d1 → FMat nb d2 → Bool →
      (dd : ℕ) × FMat nb dd)
    {nb nngpDim fd0 fd1 : ℕ} (p : RfParams nngpDim fd0 fd1)
    (f : Features nb) : Except String (Features nb) :=
  if hdim : f.dN = nngpDim then
    match f.ntk_feat with
    | none => .error "IndexError: tuple index out of range"
    | some ⟨dt, T⟩ =>
      let nngp2 : FMat nb nngpDim := hdim ▸ f.nngp_feat
      let kappa0_feat : FMat nb fd0 :=
        Matrix.of fun i j => (if 0 < (nngp2 * p.W0) i j then (1 : ℝ) else 0) / Real.sqrt fd0
      let nngpNew : FMat nb fd1 :=
        Matrix.of fun i j => max ((nngp2 * p.W1) i j) 0 / Real.sqrt fd1
      let sk := sketchFn p.tsrht nb dt fd0 T kappa0_feat true
      .ok { dN := fd1, nngp_feat := nngpNew, ntk_feat := some ⟨sk.1, sk.2⟩,
            norms := f.norms }
  else .error "shape mismatch"

/-- One complete initialize-plus-transform run of the architecture
serial(DenseFeatures w1, ReluFeatures rf, DenseFeatures w2): the init pass
splits the seed per layer and builds the rf parameter bundle, the
transform pass lifts the input and applies the layer transformers in
order.  Returns the parameter bundle together with the output features. -/
def runDenseReluDense (normal : ℕ → (r c : ℕ) → FMat r c)
    (split : ℕ → ℕ → List ℕ)
    (sketchFn : TSRHT → (nb d1 d2 : ℕ) → FMat nb d1 → FMat nb d2 → Bool →
      (dd : ℕ) × FMat nb dd)
    (w1 w2 : ℝ) (fd0 fd1 sd seed : ℕ) {nb d : ℕ} (x : FMat nb d) :
    RfParams d fd0 fd1 × Except String (Features nb) :=
  let keys := split seed 3
  let pRelu := reluRfInitParams normal split fd0 fd1 sd (keys.getD 1 0) d d
  let layers : List (Features nb → Except String (Features nb)) :=
    [fun f => .ok (denseFeatureFn w1 f),
     reluRfFeatureFn sketchFn pRelu,
     fun f => .ok (denseFeatureFn w2 f)]
  (pRelu, serialFeatureFn layers (_inputs_to_features x))

/-- Claim C9.  For a fixed seed, architecture and input, two independent
initialize-plus-transform runs produce identical parameter bundles and
identical output feature containers: the embedding threads the PRNG key
and the external collaborators explicitly, with no ambient state, so both
runs are the same pure-function application. -/
theorem init_transform_deterministic (normal : ℕ → (r c : ℕ) → FMat r c)
    (split : ℕ → ℕ → List ℕ)
    (sketchFn : TSRHT → (nb d1 d2 : ℕ) → FMat nb d1 → FMat nb d2 → Bool →
      (dd : ℕ) × FMat nb dd)
    (w1 w2 : ℝ) (fd0 fd1 sd seed : ℕ) {nb d : ℕ} (x : FMat nb d) :
    (runDenseReluDense normal split sketchFn w1 w2 fd0 fd1 sd seed x).1 =
      (runDenseReluDense normal split sketchFn w1 w2 fd0 fd1 sd seed x).1 ∧
    (runDenseReluDense normal split sketchFn w1 w2 fd0 fd1 sd seed x).2 =
      (runDenseReluDense normal split sketchFn w1 w2 fd0 fd1 sd seed x).2 :=
  ⟨rfl, rfl⟩

/-! ## The exact ReluFeatures method and the kernel round-trip law

The Gram product of a feature matrix with its transpose is what the
pipeline is meant to control.  The Cholesky factorization and the exact
kappa0/kappa1 kernel evaluations live in external collaborators (the
array backend and the poly_fitting module, neither part of the core
sources); per the spec the backend factorization of a positive
semidefinite matrix A returns L with L Lᵀ = A, and kappa0/kappa1 evaluate
the arc-cosine kernels of order 0 and 1 entrywise on a Gram matrix of
unit-norm features.  They enter the embedding as function parameters
constrained by exactly those contracted properties. -/

/-- The Gram product of a feature matrix: M Mᵀ. -/
def gram {n d : ℕ} (M : FMat n d) : Matrix (Fin n) (Fin n) ℝ := M * Mᵀ

/-- Embedding of the feature_fn of ReluFeatures with method exact: replace
the NNGP feature by a Cholesky factor of the kappa1-mapped Gram matrix,
the NTK feature by a Cholesky factor of the entrywise product of its own
Gram matrix with the kappa0-mapped NNGP Gram matrix, and divide norms by
the square root of two.  Reading the channel width of the sentinel raises
IndexError, as the source's ntk_feat.shape[-1] does on a 0-d array. -/
def reluExactFeatureFn {n : ℕ}
    (chol : Matrix (Fin n) (Fin n) ℝ → Matrix (Fin n) (Fin n) ℝ)
    (kap0 kap1 : ℝ → ℝ) (f : Features n) : Except String (Features n) :=
  match f.ntk_feat with
  | none => .error "IndexError: tuple index out of range"
  | some ⟨_, T⟩ =>
    let G := gram f.nngp_feat
    let nngpNew := chol (G.map kap1)
    let ntkNew := chol (Matrix.of fun i j => gram T i j * G.map kap0 i j)
    .ok { dN := n, nngp_feat := nngpNew, ntk_feat := some ⟨n, ntkNew⟩,
          norms := fun i => f.norms i / Real.sqrt 2 }

/-- The serial layer list Dense w1, Relu(exact), Dense w2, Relu(exact),
..., Dense wk built from a non-empty list of dense weight standard
deviations: every dense layer except the last is followed by one exact
ReLU layer. -/
def layersOf {n : ℕ} (chol : Matrix (Fin n) (Fin n) ℝ → Matrix (Fin n) (Fin n) ℝ)
    (kap0 kap1 : ℝ → ℝ) : List ℝ → List (Features n → Except String (Features n))
  | [] => []
  | [w] => [fun f => .ok (denseFeatureFn w f)]
  | w :: w2 :: ws =>
    (fun f => .ok (denseFeatureFn w f)) :: reluExactFeatureFn chol kap0 kap1 ::
      layersOf chol kap0 kap1 (w2 :: ws)

/-- Modelled from the spec: the true NNGP kernel of the lifted input, the
input Gram matrix divided by the channel dimension, with no NTK
contribution yet. -/
def trueInit {n d : ℕ} (x : FMat n d) :
    Matrix (Fin n) (Fin n) ℝ × Matrix (Fin n) (Fin n) ℝ :=
  (Matrix.of fun i j => (∑ k, x i k * x j k) / d, 0)

/-- The correlation matrix of a kernel matrix. -/
def corrM {n : ℕ} (K : Matrix (Fin n) (Fin n) ℝ) : Matrix (Fin n) (Fin n) ℝ :=
  Matrix.of fun i j => K i j / (Real.sqrt (K i i) * Real.sqrt (K j j))

/-- Modelled from the spec: the dense-layer step of the NNGP/NTK kernel
recursion in ntk parameterization, K to W_std^2 K and Theta to
W_std^2 (Theta + K). -/
def trueDense {n : ℕ} (w : ℝ)
    (S : Matrix (Fin n) (Fin n) ℝ × Matrix (Fin n) (Fin n) ℝ) :
    Matrix (Fin n) (Fin n) ℝ × Matrix (Fin n) (Fin n) ℝ :=
  (Matrix.of fun i j => w ^ 2 * S.1 i j,
   Matrix.of fun i j => w ^ 2 * (S.2 i j + S.1 i j))

/-- Modelled from the spec: the ReLU step of the kernel recursion, with
the half-space factor 1/2: K to sqrt(K_ii K_jj) kappa1(corr K)/2 and
Theta to Theta kappa0(corr K)/2 entrywise. -/
def trueRelu {n : ℕ} (kap0 kap1 : ℝ → ℝ)
    (S : Matrix (Fin n) (Fin n) ℝ × Matrix (Fin n) (Fin n) ℝ) :
    Matrix (Fin n) (Fin n) ℝ × Matrix (Fin n) (Fin n) ℝ :=
  (Matrix.of fun i j =>
      Real.sqrt (S.1 i i) * Real.sqrt (S.1 j j) * kap1 (corrM S.1 i j) / 2,
   Matrix.of fun i j => S.2 i j * kap0 (corrM S.1 i j) / 2)

/-- Modelled from the spec: the kernel recursion for the dense/relu chain
mirroring layersOf. -/
def trueChain {n : ℕ} (kap0 kap1 : ℝ → ℝ) :
    List ℝ → Matrix (Fin n) (Fin n) ℝ × Matrix (Fin n) (Fin n) ℝ →
      Matrix (Fin n) (Fin n) ℝ × Matrix (Fin n) (Fin n) ℝ
  | [], S => S
  | [w], S => trueDense w S
  | w :: w2 :: ws, S => trueChain kap0 kap1 (w2 :: ws) (trueRelu kap0 kap1 (trueDense w S))

/-- Modelled from the spec: the true NNGP and NTK kernels of the
architecture Dense w1, ReLU, ..., Dense wk, computed independently of the
feature pipeline, by the closed kernel recursion from the raw input. -/
def trueKernels {n d : ℕ} (kap0 kap1 : ℝ → ℝ) (x : FMat n d) (ws : List ℝ) :
    Matrix (Fin n) (Fin n) ℝ × Matrix (Fin n) (Fin n) ℝ :=
  trueChain kap0 kap1 ws (trueInit x)

/-- The invariant relating a Features container to the true kernel pair
of the architecture prefix: the norms-adjusted NNGP Gram product is the
true NNGP kernel, the running NNGP Gram matrix has unit diagonal, the
accumulated norms are positive, and the norms-adjusted NTK Gram product
is the true NTK kernel (or the NTK feature is still the sentinel and the
true NTK kernel is zero). -/
def KernelInv {n : ℕ} (f : Features n)
    (S : Matrix (Fin n) (Fin n) ℝ × Matrix (Fin n) (Fin n) ℝ) : Prop :=
  gram (rowScale f.norms f.nngp_feat) = S.1 ∧
  (∀ i, gram f.nngp_feat i i = 1) ∧
  (∀ i, 0 < f.norms i) ∧
  ((f.ntk_feat = none ∧ S.2 = 0) ∨
    ∃ (dt : ℕ) (T : FMat n dt), f.ntk_feat = some ⟨dt, T⟩ ∧
      gram (rowScale f.norms T) = S.2)

/-- Entrywise description of the Gram product. -/
theorem gram_apply {n d : ℕ} (M : FMat n d) (i j : Fin n) :
    gram M i j = ∑ k, M i k * M j k := by
  simp [gram, Matrix.mul_apply]

/-- Row scaling conjugates the Gram product by the scale factors. -/
theorem gram_rowScale_apply {n d : ℕ} (c : Fin n → ℝ) (M : FMat n d) (i j : Fin n) :
    gram (rowScale c M) i j = c i * c j * gram M i j := by
  simp only [gram_apply, rowScale, Matrix.of_apply]
  rw [Finset.mul_sum]
  exact Finset.sum_congr rfl fun k _ => by ring

/-- The Gram product of a channel concatenation is the sum of the Gram
products. -/
theorem gram_concatC_apply {n a b : ℕ} (A : FMat n a) (B : FMat n b) (i j : Fin n) :
    gram (concatC A B) i j = gram A i j + gram B i j := by
  simp only [gram_apply, concatC, Matrix.of_apply]
  rw [Fin.sum_univ_add]
  congr 1
  · exact Finset.sum_congr rfl fun k _ => by rw [Fin.addCases_left, Fin.addCases_left]
  · exact Finset.sum_congr rfl fun k _ => by rw [Fin.addCases_right, Fin.addCases_right]

/-- Every Gram product is positive semidefinite. -/
theorem gram_posSemidef {n d : ℕ} (M : FMat n d) : (gram M).PosSemidef := by
  have h : gram M = M * Mᴴ := by
    ext i j
    simp [gram, Matrix.mul_apply, Matrix.conjTranspose_apply]
  rw [h]
  exact Matrix.posSemidef_self_mul_conjTranspose M

/-- Schur product with a Gram factor: the entrywise product of a Gram
matrix with a positive semidefinite matrix is positive semidefinite. -/
theorem hadamard_gram_posSemidef {n d : ℕ} (T : FMat n d)
    (B : Matrix (Fin n) (Fin n) ℝ) (hB : B.PosSemidef) :
    (Matrix.of fun i j => gram T i j * B i j).PosSemidef := by
  have hsum : (Matrix.of fun i j => gram T i j * B i j) =
      ∑ k : Fin d, Matrix.diagonal (fun i => T i k) * B *
        (Matrix.diagonal (fun i => T i k))ᴴ := by
    ext i j
    simp only [Matrix.of_apply, Matrix.sum_apply, Matrix.diagonal_conjTranspose,
      Matrix.mul_diagonal, Matrix.diagonal_mul, gram_apply, Pi.star_apply, star_trivial]
    rw [Finset.sum_mul]
    exact Finset.sum_congr rfl fun k _ => by ring
  rw [hsum]
  exact Finset.sum_induction _ _ (fun a b ha hb => ha.add hb) .zero
    (fun k _ => hB.mul_mul_conjTranspose_same _)

/-- Lifting a raw input with rows of nonzero euclidean norm establishes
the kernel invariant at the true input kernels. -/
theorem lift_inv {n d : ℕ} (x : FMat n d) (hx : ∀ i, 0 < ∑ j, x i j ^ 2) :
    KernelInv (_inputs_to_features x) (trueInit x) := by
  have hdpos : Fin n → (0 : ℝ) < (d : ℝ) := by
    intro i
    have hd0 : d ≠ 0 := by
      intro h
      subst h
      simpa using hx i
    exact_mod_cast Nat.pos_of_ne_zero hd0
  set nngp0 : FMat n d := Matrix.of fun i j => x i j / Real.sqrt d with hnngp0
  set norms0 : Fin n → ℝ := fun i => Real.sqrt (∑ j, nngp0 i j ^ 2) with hnorms0
  set normsF : Fin n → ℝ := fun i => if 0 < norms0 i then norms0 i else 1 with hnormsF
  have hsum : ∀ i, ∑ j, nngp0 i j ^ 2 = (∑ j, x i j ^ 2) / d := by
    intro i
    rw [Finset.sum_div]
    refine Finset.sum_congr rfl fun k _ => ?_
    rw [hnngp0]
    simp only [Matrix.of_apply]
    rw [div_pow, Real.sq_sqrt (by positivity : (0 : ℝ) ≤ (d : ℝ))]
  have hpos0 : ∀ i, 0 < norms0 i := by
    intro i
    rw [hnorms0]
    exact Real.sqrt_pos.2 (by rw [hsum i]; exact div_pos (hx i) (hdpos i))
  have hnormeq : ∀ i, normsF i = norms0 i := fun i => if_pos (hpos0 i)
  have hnpos : ∀ i, 0 < normsF i := fun i => by rw [hnormeq]; exact hpos0 i
  have hfeat : _inputs_to_features x =
      { dN := d, nngp_feat := Matrix.of fun i j => nngp0 i j / normsF i,
        ntk_feat := none, norms := normsF } := rfl
  rw [hfeat]
  refine ⟨?_, ?_, hnpos, Or.inl ⟨rfl, rfl⟩⟩
  · ext i j
    rw [gram_rowScale_apply, gram_apply]
    have hterm : ∀ k : Fin d,
        normsF i * normsF j *
          ((Matrix.of fun i j => nngp0 i j / normsF i) i k *
           (Matrix.of fun i j => nngp0 i j / normsF i) j k) =
        x i k * x j k / d := by
      intro k
      have h1 : normsF i ≠ 0 := ne_of_gt (hnpos i)
      have h2 : normsF j ≠ 0 := ne_of_gt (hnpos j)
      have hsd : Real.sqrt d ≠ 0 := ne_of_gt (Real.sqrt_pos.2 (hdpos i))
      have hd : (d : ℝ) ≠ 0 := ne_of_gt (hdpos i)
      simp only [Matrix.of_apply, hnngp0]
      field_simp
      have hss : Real.sqrt d * Real.sqrt d = (d : ℝ) :=
        Real.mul_self_sqrt (le_of_lt (hdpos i))
      linear_combination (-(x i k * x j k * normsF i * normsF j)) * hss
    rw [Finset.mul_sum, Finset.sum_congr rfl fun k _ => hterm k, ← Finset.sum_div]
    simp [trueInit]
  · intro i
    rw [gram_apply]
    have hterm : ∀ k : Fin d,
        (Matrix.of fun i j => nngp0 i j / normsF i) i k *
          (Matrix.of fun i j => nngp0 i j / normsF i) i k =
        nngp0 i k ^ 2 / normsF i ^ 2 := by
      intro k
      simp only [Matrix.of_apply]
      rw [div_mul_div_comm, ← pow_two, ← pow_two]
    rw [Finset.sum_congr rfl fun k _ => hterm k, ← Finset.sum_div, hnormeq i]
    have hsq : norms0 i ^ 2 = ∑ j, nngp0 i j ^ 2 := by
      rw [hnorms0]
      exact Real.sq_sqrt (by positivity)
    rw [hsq]
    exact div_self (ne_of_gt (by rw [hsum i]; exact div_pos (hx i) (hdpos i)))

/-- The DenseFeatures transformer preserves the kernel invariant along the
dense step of the true kernel recursion. -/
theorem dense_preserves_inv {n : ℕ} (w : ℝ) (hw : 0 < w) (f : Features n)
    (S : Matrix (Fin n) (Fin n) ℝ × Matrix (Fin n) (Fin n) ℝ)
    (h : KernelInv f S) : KernelInv (denseFeatureFn w f) (trueDense w S) := by
  obtain ⟨hK, hdiag, hpos, hntk⟩ := h
  refine ⟨?_, hdiag, fun i => mul_pos (hpos i) hw, ?_⟩
  · ext i j
    show gram (rowScale (fun i => f.norms i * w) f.nngp_feat) i j = (trueDense w S).1 i j
    have he : gram (rowScale f.norms f.nngp_feat) i j = S.1 i j := by rw [hK]
    rw [gram_rowScale_apply] at he
    rw [gram_rowScale_apply]
    simp only [trueDense, Matrix.of_apply, ← he]
    ring
  · cases hntk with
    | inl hcase =>
      obtain ⟨hnone, hS2⟩ := hcase
      refine Or.inr ⟨f.dN, f.nngp_feat, ?_, ?_⟩
      · show (denseFeatureFn w f).ntk_feat = _
        simp [denseFeatureFn, hnone]
      · ext i j
        show gram (rowScale (fun i => f.norms i * w) f.nngp_feat) i j = (trueDense w S).2 i j
        have he : gram (rowScale f.norms f.nngp_feat) i j = S.1 i j := by rw [hK]
        rw [gram_rowScale_apply] at he
        rw [gram_rowScale_apply]
        simp only [trueDense, Matrix.of_apply, hS2, Matrix.zero_apply, ← he]
        ring
    | inr hcase =>
      obtain ⟨dt, T, hT, hTS⟩ := hcase
      refine Or.inr ⟨dt + f.dN, concatC T f.nngp_feat, ?_, ?_⟩
      · show (denseFeatureFn w f).ntk_feat = _
        simp [denseFeatureFn, hT]
      · ext i j
        show gram (rowScale (fun i => f.norms i * w) (concatC T f.nngp_feat)) i j =
          (trueDense w S).2 i j
        have he : gram (rowScale f.norms f.nngp_feat) i j = S.1 i j := by rw [hK]
        have ht : gram (rowScale f.norms T) i j = S.2 i j := by rw [hTS]
        rw [gram_rowScale_apply] at he ht
        rw [gram_rowScale_apply, gram_concatC_apply]
        simp only [trueDense, Matrix.of_apply, ← he, ← ht]
        ring

/-- The exact ReluFeatures transformer preserves the kernel invariant
along the ReLU step of the true kernel recursion, under the contracted
properties of the external Cholesky factorization and of the exact
arc-cosine kernel evaluations. -/
theorem relu_preserves_inv {n : ℕ}
    (chol : Matrix (Fin n) (Fin n) ℝ → Matrix (Fin n) (Fin n) ℝ)
    (kap0 kap1 : ℝ → ℝ)
    (hchol : ∀ A : Matrix (Fin n) (Fin n) ℝ, A.PosSemidef → chol A * (chol A)ᵀ = A)
    (hk1one : kap1 1 = 1)
    (hk1psd : ∀ G : Matrix (Fin n) (Fin n) ℝ, G.PosSemidef → (∀ i, G i i = 1) →
      (G.map kap1).PosSemidef)
    (hk0psd : ∀ G : Matrix (Fin n) (Fin n) ℝ, G.PosSemidef → (∀ i, G i i = 1) →
      (G.map kap0).PosSemidef)
    (f : Features n) (S : Matrix (Fin n) (Fin n) ℝ × Matrix (Fin n) (Fin n) ℝ)
    (h : KernelInv f S) (dt : ℕ) (T : FMat n dt) (hT : f.ntk_feat = some ⟨dt, T⟩) :
    ∃ f', reluExactFeatureFn chol kap0 kap1 f = .ok f' ∧
      KernelInv f' (trueRelu kap0 kap1 S) := by
  obtain ⟨hK, hdiag, hpos, hntk⟩ := h
  have hTS : gram (rowScale f.norms T) = S.2 := by
    rcases hntk with ⟨hnone, _⟩ | ⟨dt', T', hT', hTS'⟩
    · rw [hT] at hnone
      cases hnone
    · rw [hT] at hT'
      obtain ⟨h1, h2⟩ := Sigma.mk.inj_iff.1 (Option.some.inj hT')
      subst h1
      rw [← eq_of_heq h2] at hTS'
      exact hTS'
  have hGpsd := gram_posSemidef f.nngp_feat
  have hg1 : gram (chol ((gram f.nngp_feat).map kap1)) =
      (gram f.nngp_feat).map kap1 :=
    hchol _ (hk1psd _ hGpsd hdiag)
  have hg2 : gram (chol (Matrix.of fun i j =>
        gram T i j * (gram f.nngp_feat).map kap0 i j)) =
      Matrix.of fun i j => gram T i j * (gram f.nngp_feat).map kap0 i j :=
    hchol _ (hadamard_gram_posSemidef T _ (hk0psd _ hGpsd hdiag))
  have hS1 : ∀ i j, S.1 i j = f.norms i * f.norms j * gram f.nngp_feat i j := by
    intro i j
    rw [← hK, gram_rowScale_apply]
  have hsqrtS1 : ∀ i, Real.sqrt (S.1 i i) = f.norms i := by
    intro i
    rw [hS1 i i, hdiag i, mul_one]
    exact Real.sqrt_mul_self (hpos i).le
  have hcorr : ∀ i j, corrM S.1 i j = gram f.nngp_feat i j := by
    intro i j
    simp only [corrM, Matrix.of_apply, hsqrtS1]
    rw [hS1 i j,
      mul_div_cancel_left₀ _ (mul_ne_zero (ne_of_gt (hpos i)) (ne_of_gt (hpos j)))]
  have h2 : Real.sqrt 2 * Real.sqrt 2 = 2 := Real.mul_self_sqrt (by norm_num)
  refine ⟨{ dN := n, nngp_feat := chol ((gram f.nngp_feat).map kap1),
            ntk_feat := some ⟨n, chol (Matrix.of fun i j =>
              gram T i j * (gram f.nngp_feat).map kap0 i j)⟩,
            norms := fun i => f.norms i / Real.sqrt 2 }, ?_, ?_, ?_, ?_, ?_⟩
  · unfold reluExactFeatureFn
    rw [hT]
  · ext i j
    show gram (rowScale (fun i => f.norms i / Real.sqrt 2)
      (chol ((gram f.nngp_feat).map kap1))) i j = (trueRelu kap0 kap1 S).1 i j
    rw [gram_rowScale_apply]
    have he : gram (chol ((gram f.nngp_feat).map kap1)) i j =
        (gram f.nngp_feat).map kap1 i j := by rw [hg1]
    rw [he]
    simp only [trueRelu, Matrix.of_apply, Matrix.map_apply, hsqrtS1, hcorr]
    rw [div_mul_div_comm, h2]
    ring
  · intro i
    show gram (chol ((gram f.nngp_feat).map kap1)) i i = 1
    have he : gram (chol ((gram f.nngp_feat).map kap1)) i i =
        (gram f.nngp_feat).map kap1 i i := by rw [hg1]
    rw [he, Matrix.map_apply, hdiag i, hk1one]
  · intro i
    exact div_pos (hpos i) (Real.sqrt_pos.2 (by norm_num))
  · refine Or.inr ⟨n, chol (Matrix.of fun i j =>
      gram T i j * (gram f.nngp_feat).map kap0 i j), rfl, ?_⟩
    ext i j
    rw [gram_rowScale_apply]
    have he : gram (chol (Matrix.of fun i j =>
        gram T i j * (gram f.nngp_feat).map kap0 i j)) i j =
        gram T i j * (gram f.nngp_feat).map kap0 i j := by
      rw [hg2]
      rfl
    rw [he]
    have ht : gram (rowScale f.norms T) i j = S.2 i j := by rw [hTS]
    rw [gram_rowScale_apply] at ht
    simp only [trueRelu, Matrix.of_apply, Matrix.map_apply, hcorr, ← ht]
    rw [div_mul_div_comm, h2]
    ring

/-- Walking a non-empty dense/relu chain preserves the kernel invariant
along the true kernel recursion. -/
theorem chain_preserves_inv {n : ℕ}
    (chol : Matrix (Fin n) (Fin n) ℝ → Matrix (Fin n) (Fin n) ℝ)
    (kap0 kap1 : ℝ → ℝ)
    (hchol : ∀ A : Matrix (Fin n) (Fin n) ℝ, A.PosSemidef → chol A * (chol A)ᵀ = A)
    (hk1one : kap1 1 = 1)
    (hk1psd : ∀ G : Matrix (Fin n) (Fin n) ℝ, G.PosSemidef → (∀ i, G i i = 1) →
      (G.map kap1).PosSemidef)
    (hk0psd : ∀ G : Matrix (Fin n) (Fin n) ℝ, G.PosSemidef → (∀ i, G i i = 1) →
      (G.map kap0).PosSemidef) :
    ∀ ws : List ℝ, ws ≠ [] → (∀ w ∈ ws, 0 < w) →
      ∀ (f : Features n) (S : Matrix (Fin n) (Fin n) ℝ × Matrix (Fin n) (Fin n) ℝ),
        KernelInv f S →
        ∃ f', applyLayers (layersOf chol kap0 kap1 ws) f = .ok f' ∧
          KernelInv f' (trueChain kap0 kap1 ws S) := by
  intro ws
  induction ws with
  | nil => intro h; exact absurd rfl h
  | cons w tail ih =>
    intro _ hw f S hInv
    cases tail with
    | nil =>
      refine ⟨denseFeatureFn w f, ?_, ?_⟩
      · simp [layersOf, applyLayers]
      · exact dense_preserves_inv w (hw w (by simp)) f S hInv
    | cons w2 ws2 =>
      have hInv1 := dense_preserves_inv w (hw w (by simp)) f S hInv
      obtain ⟨⟨dt, T⟩, hT⟩ :
          ∃ dtT : (dt : ℕ) × FMat n dt, (denseFeatureFn w f).ntk_feat = some dtT :=
        ⟨_, rfl⟩
      obtain ⟨f2, hf2, hInv2⟩ :=
        relu_preserves_inv chol kap0 kap1 hchol hk1one hk1psd hk0psd
          (denseFeatureFn w f) (trueDense w S) hInv1 dt T hT
      obtain ⟨f3, hf3, hInv3⟩ :=
        ih (by simp) (fun v hv => hw v (List.mem_cons_of_mem _ hv)) f2
          (trueRelu kap0 kap1 (trueDense w S)) hInv2
      refine ⟨f3, ?_, ?_⟩
      · simp [layersOf, applyLayers, hf2, hf3]
      · simpa [trueChain] using hInv3

/-- Claim C1.  Composing DenseFeatures and exact-method ReluFeatures
layers through serial reproduces the true NNGP and NTK kernels of the
corresponding architecture: for the chain Dense w1, ReLU, Dense w2, ...,
Dense wk applied to a small input batch whose rows are nonzero, the final
container returned by serial (with the accumulated norms multiplied back)
has nngp_feat nngp_featᵀ equal to the true NNGP kernel and
ntk_feat ntk_featᵀ equal to the true NTK kernel, both computed
independently by the closed kernel recursion.  The external Cholesky
factorization and arc-cosine kernel evaluations enter through their
contracted properties. -/
theorem exact_serial_reproduces_kernels {n d : ℕ} (x : FMat n d)
    (chol : Matrix (Fin n) (Fin n) ℝ → Matrix (Fin n) (Fin n) ℝ)
    (kap0 kap1 : ℝ → ℝ) (ws : List ℝ)
    (hchol : ∀ A : Matrix (Fin n) (Fin n) ℝ, A.PosSemidef → chol A * (chol A)ᵀ = A)
    (hk1one : kap1 1 = 1)
    (hk1psd : ∀ G : Matrix (Fin n) (Fin n) ℝ, G.PosSemidef → (∀ i, G i i = 1) →
      (G.map kap1).PosSemidef)
    (hk0psd : ∀ G : Matrix (Fin n) (Fin n) ℝ, G.PosSemidef → (∀ i, G i i = 1) →
      (G.map kap0).PosSemidef)
    (hws : ws ≠ []) (hw : ∀ w ∈ ws, 0 < w)
    (hx : ∀ i, 0 < ∑ j, x i j ^ 2) :
    ∃ f', serialFeatureFn (layersOf chol kap0 kap1 ws) (_inputs_to_features x) = .ok f' ∧
      gram f'.nngp_feat = (trueKernels kap0 kap1 x ws).1 ∧
      ∃ (dt : ℕ) (T : FMat n dt), f'.ntk_feat = some ⟨dt, T⟩ ∧
        gram T = (trueKernels kap0 kap1 x ws).2 := by
  obtain ⟨flast, happ, hInv⟩ :=
    chain_preserves_inv chol kap0 kap1 hchol hk1one hk1psd hk0psd ws hws hw
      (_inputs_to_features x) (trueInit x) (lift_inv x hx)
  obtain ⟨hK, hdiag, hpos, hntk⟩ := hInv
  refine ⟨_renormalize_feature flast, ?_, ?_, ?_⟩
  · simp [serialFeatureFn, happ, Except.map]
  · show gram (rowScale flast.norms flast.nngp_feat) = _
    exact hK
  · rcases hntk with ⟨hnone, hS2⟩ | ⟨dt, T, hT, hTS⟩
    · refine ⟨1, Matrix.of fun i _ => 0 * flast.norms i, ?_, ?_⟩
      · show (_renormalize_feature flast).ntk_feat = _
        simp [_renormalize_feature, hnone]
      · show gram (Matrix.of fun i _ => 0 * flast.norms i) = _
        rw [show (trueKernels kap0 kap1 x ws).2 = (0 : Matrix (Fin n) (Fin n) ℝ) from hS2]
        ext i j
        simp [gram_apply]
    · refine ⟨dt, rowScale flast.norms T, ?_, hTS⟩
      show (_renormalize_feature flast).ntk_feat = _
      simp [_renormalize_feature, hT]

/-- Witness for claim C1: a batch of one input in one dimension through
the one-layer architecture Dense 1, with the square root as the 1 by 1
Cholesky factorization and the constant-one functions as the arc-cosine
kernel evaluations, which satisfy all the contracted properties. -/
theorem exact_serial_reproduces_kernels_witness :
    ∃ f', serialFeatureFn
        (layersOf (fun A : Matrix (Fin 1) (Fin 1) ℝ => A.map Real.sqrt)
          (fun _ => 1) (fun _ => 1) [1])
        (_inputs_to_features (Matrix.of fun _ _ => (1 : ℝ) : FMat 1 1)) = .ok f' ∧
      gram f'.nngp_feat =
        (trueKernels (fun _ => 1) (fun _ => 1)
          (Matrix.of fun _ _ => (1 : ℝ) : FMat 1 1) [1]).1 ∧
      ∃ (dt : ℕ) (T : FMat 1 dt), f'.ntk_feat = some ⟨dt, T⟩ ∧
        gram T = (trueKernels (fun _ => 1) (fun _ => 1)
          (Matrix.of fun _ _ => (1 : ℝ) : FMat 1 1) [1]).2 := by
  apply exact_serial_reproduces_kernels
  · intro A hA
    have h00 : 0 ≤ A 0 0 := by
      have hq := hA.2 (fun _ => 1)
      simpa [Matrix.dotProduct, Matrix.mulVec, Fin.sum_univ_one] using hq
    ext i j
    obtain rfl : i = 0 := Subsingleton.elim _ _
    obtain rfl : j = 0 := Subsingleton.elim _ _
    simp [Matrix.mul_apply, Fin.sum_univ_one, Real.mul_self_sqrt h00]
  · rfl
  · intro G hG hGd
    constructor
    · ext i j
      simp [Matrix.conjTranspose_apply, Matrix.map_apply]
    · intro v
      have hq : Matrix.dotProduct (star v) ((G.map fun _ => (1 : ℝ)) *ᵥ v) =
          v 0 * v 0 := by
        simp [Matrix.dotProduct, Matrix.mulVec, Matrix.map_apply, Fin.sum_univ_one]
      rw [hq]
      exact mul_self_nonneg _
  · intro G hG hGd
    constructor
    · ext i j
      simp [Matrix.conjTranspose_apply, Matrix.map_apply]
    · intro v
      have hq : Matrix.dotProduct (star v) ((G.map fun _ => (1 : ℝ)) *ᵥ v) =
          v 0 * v 0 := by
        simp [Matrix.dotProduct, Matrix.mulVec, Matrix.map_apply, Fin.sum_univ_one]
      rw [hq]
      exact mul_self_nonneg _
  · simp
  · intro w hw2
    rw [List.mem_singleton.1 hw2]
    norm_num
  · intro i
    simp [Fin.sum_univ_one]

end

end NT
